import Mathlib

/-!
# Verification of the sort-merge inner-join engine (`csv_aggregation.rs`)

Shallow embedding of the core of the repository: the in-memory `DataSet`
(header names plus string-valued rows), column-name resolution (`key_index`),
in-place stable sorting of rows by a column (`sort_by_index`), and the
sort-merge `inner_join`, together with proofs of the specified properties.

Rows are lists of strings; a `StringRecord` is modelled as `List String`.
Rust's `record[i]` indexing is modelled by `fieldAt` (total, defaulting to
the empty string out of range); the safety claims establish that under the
documented row-width invariant every such access is in bounds.
Rust's stable `sort_by` is modelled by `List.mergeSort`, which is likewise
a stable sort, so the two agree extensionally.
Errors carried by the Rust `Box<dyn Error>` / `IndexError(String)` values are
modelled by the inductive `AggError`, whose two constructors correspond to
the two distinct messages the code produces.
-/

namespace CsvAgg

/-- Field access `record[i]` on a row; total, with `""` out of range. -/
def fieldAt (r : List String) (i : Nat) : String := r.getD i ""

/-- The two errors the aggregation code can raise: the "Column '{key}' does
not exist." message from `key_index`, and the "Index '{index}' out of bounds"
message from `sort_by_index`. -/
inductive AggError where
  | columnNotFound (key : String)
  | indexOutOfRange (index : Nat)
deriving DecidableEq, Repr

/-- The internal data set: header row and records of a CSV file. -/
structure DataSet where
  headers : List String
  records : List (List String)
deriving DecidableEq, Repr

/-- `DataSet::key_index`: finds the index of a column given the column name,
by a linear scan for the first matching header. -/
def key_index (d : DataSet) (key : String) : Except AggError Nat :=
  match d.headers.findIdx? (fun column => column == key) with
  | some index => .ok index
  | none => .error (.columnNotFound key)

/-- The comparator used by `sort_by_index`: `a[index].cmp(&b[index])`
as a boolean "less or equal" on rows. -/
def rowLE (index : Nat) (a b : List String) : Bool :=
  fieldAt a index ≤ fieldAt b index

/-- `DataSet::sort_by_index`: sorts the records by the field at `index`
(stably, as Rust's `sort_by` is stable), failing when `index` is not below
the header count. -/
def sort_by_index (d : DataSet) (index : Nat) : Except AggError DataSet :=
  if index ≥ d.headers.length then
    .error (.indexOutOfRange index)
  else
    .ok { d with records := d.records.mergeSort (rowLE index) }

/-- The inner `while k < right.records.len() && keys match` scan of
`inner_join`, which walks the right records from position `k` emitting the
concatenation of the current left record with each key-matching right
record, stopping at the first mismatch. -/
def scanRight (L : List String) (li ri : Nat) (rrecs : List (List String))
    (k : Nat) : List (List String) :=
  if h : k < rrecs.length then
    if fieldAt L li = fieldAt (rrecs.get ⟨k, h⟩) ri then
      (L ++ rrecs.get ⟨k, h⟩) :: scanRight L li ri rrecs (k + 1)
    else
      []
  else
    []
termination_by rrecs.length - k

/-- The outer merge loop of `inner_join`, on cursors `i` (left) and `j`
(right): on a key match it emits the concatenated pair, then the inner
`scanRight` fan-out from `j + 1`, and advances only `i`; otherwise it
advances the cursor holding the smaller key. -/
def mergeLoop (lrecs rrecs : List (List String)) (li ri : Nat)
    (i j : Nat) : List (List String) :=
  if hi : i < lrecs.length then
    if hj : j < rrecs.length then
      if fieldAt (lrecs.get ⟨i, hi⟩) li = fieldAt (rrecs.get ⟨j, hj⟩) ri then
        ((lrecs.get ⟨i, hi⟩ ++ rrecs.get ⟨j, hj⟩)
            :: scanRight (lrecs.get ⟨i, hi⟩) li ri rrecs (j + 1))
          ++ mergeLoop lrecs rrecs li ri (i + 1) j
      else if fieldAt (lrecs.get ⟨i, hi⟩) li < fieldAt (rrecs.get ⟨j, hj⟩) ri then
        mergeLoop lrecs rrecs li ri (i + 1) j
      else
        mergeLoop lrecs rrecs li ri i (j + 1)
    else
      []
  else
    []
termination_by (lrecs.length - i) + (rrecs.length - j)

/-- `DataSet::inner_join` (the `Aggregate` impl), where `left` is `self`.
The Rust method sorts both inputs in place; the embedding makes the mutation
explicit by returning, besides the `Result`, the final states of the two
input data sets. -/
def inner_join (left right : DataSet) (key : String) :
    Except AggError DataSet × DataSet × DataSet :=
  match key_index left key with
  | .error e => (.error e, left, right)
  | .ok left_index =>
    match key_index right key with
    | .error e => (.error e, left, right)
    | .ok right_index =>
      let headers := left.headers ++ right.headers
      if left.records.isEmpty || right.records.isEmpty then
        (.ok ⟨headers, []⟩, left, right)
      else
        match sort_by_index left left_index with
        | .error e => (.error e, left, right)
        | .ok left' =>
          match sort_by_index right right_index with
          | .error e => (.error e, left', right)
          | .ok right' =>
            (.ok ⟨headers,
                mergeLoop left'.records right'.records left_index right_index 0 0⟩,
              left', right')

/-- List-suffix view of `scanRight`: emit pairs for the maximal key-matching
prefix of the remaining right records. -/
def scanMatches (L : List String) (li ri : Nat) :
    List (List String) → List (List String)
  | [] => []
  | R :: rs =>
    if fieldAt L li = fieldAt R ri then
      (L ++ R) :: scanMatches L li ri rs
    else
      []

/-- List-suffix view of the merge loop: the cursors are replaced by the
suffixes of the two record lists that they point into. -/
def mergeJoin (li ri : Nat) :
    List (List String) → List (List String) → List (List String)
  | [], _ => []
  | _ :: _, [] => []
  | L :: ls, R :: rs =>
    if fieldAt L li = fieldAt R ri then
      ((L ++ R) :: scanMatches L li ri rs) ++ mergeJoin li ri ls (R :: rs)
    else if fieldAt L li < fieldAt R ri then
      mergeJoin li ri ls (R :: rs)
    else
      mergeJoin li ri (L :: ls) rs
termination_by ls rs => ls.length + rs.length

/-- The nested-loop specification of the inner join: for each left row, all
key-matching right rows in order, concatenated. The merge loop is proved to
compute exactly this on key-sorted inputs. -/
def joinSpec (li ri : Nat) (lrecs rrecs : List (List String)) :
    List (List String) :=
  lrecs.flatMap fun L =>
    (rrecs.filter fun R => fieldAt L li = fieldAt R ri).map fun R => L ++ R

/-- Sortedness of a record list by the field at `idx`, as the merge scan
requires. -/
def KeySorted (idx : Nat) (l : List (List String)) : Prop :=
  l.Pairwise (fun a b => fieldAt a idx ≤ fieldAt b idx)

/-! ### Properties of `key_index` -/

theorem key_index_eq_ok_iff {d : DataSet} {key : String} {i : Nat} :
    key_index d key = .ok i ↔
      d.headers.findIdx? (fun column => column == key) = some i := by
  unfold key_index
  cases d.headers.findIdx? (fun column => column == key) <;> simp

theorem key_index_eq_error_iff {d : DataSet} {key : String} {e : AggError} :
    key_index d key = .error e ↔ key ∉ d.headers ∧ e = .columnNotFound key := by
  unfold key_index
  cases hf : d.headers.findIdx? (fun column => column == key) with
  | none =>
    rw [List.findIdx?_eq_none_iff] at hf
    simp only [Except.error.injEq]
    constructor
    · intro he
      refine ⟨fun hmem => ?_, he.symm⟩
      have := hf key hmem
      simp at this
    · intro h
      exact h.2.symm
  | some j =>
    have hj := List.findIdx?_eq_some_iff_getElem.mp hf
    obtain ⟨hlt, hp, -⟩ := hj
    simp only [beq_iff_eq] at hp
    simp only [reduceCtorEq, false_iff, not_and]
    intro hmem
    exact absurd (hp ▸ List.getElem_mem hlt) hmem

theorem key_index_lt {d : DataSet} {key : String} {i : Nat}
    (h : key_index d key = .ok i) : i < d.headers.length := by
  rw [key_index_eq_ok_iff] at h
  obtain ⟨hlt, -, -⟩ := List.findIdx?_eq_some_iff_getElem.mp h
  exact hlt

theorem key_index_first {d : DataSet} {key : String} {i : Nat}
    (h : key_index d key = .ok i) :
    i < d.headers.length ∧ d.headers.getD i "" = key ∧
      ∀ j, j < i → d.headers.getD j "" ≠ key := by
  rw [key_index_eq_ok_iff] at h
  obtain ⟨hlt, hp, hfirst⟩ := List.findIdx?_eq_some_iff_getElem.mp h
  simp only [beq_iff_eq] at hp hfirst
  refine ⟨hlt, ?_, fun j hj => ?_⟩
  · rw [List.getD_eq_getElem _ _ hlt]
    exact hp
  · rw [List.getD_eq_getElem _ _ (Nat.lt_trans hj hlt)]
    exact hfirst j hj

theorem key_index_ok_of_mem {d : DataSet} {key : String}
    (h : key ∈ d.headers) : ∃ i, key_index d key = .ok i := by
  cases hk : key_index d key with
  | ok i => exact ⟨i, rfl⟩
  | error e =>
    rw [key_index_eq_error_iff] at hk
    exact absurd h hk.1

/-! ### Properties of `sort_by_index` -/

theorem rowLE_trans (index : Nat) :
    ∀ a b c, rowLE index a b → rowLE index b c → rowLE index a c := by
  intro a b c
  simp only [rowLE, decide_eq_true_eq]
  exact le_trans

theorem rowLE_total (index : Nat) :
    ∀ a b, rowLE index a b || rowLE index b a := by
  intro a b
  simp only [rowLE, Bool.or_eq_true, decide_eq_true_eq]
  exact le_total _ _

theorem sort_by_index_eq_error_iff {d : DataSet} {index : Nat} {e : AggError} :
    sort_by_index d index = .error e ↔
      d.headers.length ≤ index ∧ e = .indexOutOfRange index := by
  unfold sort_by_index
  split
  · next h => simp_all [eq_comm, ge_iff_le]
  · next h =>
    simp only [ge_iff_le, not_le] at h
    simp only [reduceCtorEq, false_iff, not_and]
    omega

theorem sort_by_index_ok {d : DataSet} {index : Nat}
    (h : index < d.headers.length) :
    sort_by_index d index =
      .ok ⟨d.headers, d.records.mergeSort (rowLE index)⟩ := by
  unfold sort_by_index
  rw [if_neg (by omega)]

/-- The sorted records are a permutation of the input records. -/
theorem sortRecords_perm (l : List (List String)) (index : Nat) :
    (l.mergeSort (rowLE index)).Perm l :=
  List.mergeSort_perm l _

/-- The sorted records are pairwise ordered by the key field. -/
theorem sortRecords_pairwise (l : List (List String)) (index : Nat) :
    (l.mergeSort (rowLE index)).Pairwise
      (fun a b => fieldAt a index ≤ fieldAt b index) := by
  have h := @List.sorted_mergeSort _ (rowLE index)
    (rowLE_trans index) (rowLE_total index) l
  exact h.imp (by simp [rowLE])

/-- Stability of the sort: for every key value `v`, the rows whose key field
equals `v` appear in the sorted records in exactly the order they had in the
input records. -/
theorem sortRecords_stable (l : List (List String)) (index : Nat) (v : String) :
    (l.mergeSort (rowLE index)).filter (fun r => fieldAt r index = v)
      = l.filter (fun r => fieldAt r index = v) := by
  set p : List String → Bool := fun r => decide (fieldAt r index = v) with hp
  have hmemv : ∀ r ∈ l.filter p, fieldAt r index = v := by
    intro r hr
    have := List.of_mem_filter hr
    simpa [hp] using this
  have hpair : (l.filter p).Pairwise (fun a b => rowLE index a b = true) := by
    apply List.pairwise_of_forall_mem_list
    intro a ha b hb
    simp only [rowLE, decide_eq_true_eq, hmemv a ha, hmemv b hb, le_refl]
  have h1 : List.Sublist (l.filter p) (l.mergeSort (rowLE index)) :=
    List.sublist_mergeSort (rowLE_trans index) (rowLE_total index) hpair
      (List.filter_sublist l)
  have h2 : ((l.mergeSort (rowLE index)).filter p).Perm (l.filter p) :=
    (List.mergeSort_perm l _).filter p
  have h3 : List.Sublist (l.filter p) ((l.mergeSort (rowLE index)).filter p) := by
    have h4 := h1.filter p
    have h5 : (l.filter p).filter p = l.filter p := by
      apply List.filter_eq_self.mpr
      intro a ha
      exact List.of_mem_filter ha
    rwa [h5] at h4
  exact (h3.eq_of_length h2.length_eq.symm).symm

/-! ### The cursor loops coincide with their list-suffix views -/

theorem mergeJoin_nil_right (li ri : Nat) (ls : List (List String)) :
    mergeJoin li ri ls [] = [] := by
  cases ls <;> simp [mergeJoin]

theorem scanRight_eq_scanMatches (L : List String) (li ri : Nat)
    (rrecs : List (List String)) :
    ∀ k, scanRight L li ri rrecs k = scanMatches L li ri (rrecs.drop k) := by
  have key : ∀ n k, rrecs.length - k ≤ n →
      scanRight L li ri rrecs k = scanMatches L li ri (rrecs.drop k) := by
    intro n
    induction n with
    | zero =>
      intro k hk
      have hlen : rrecs.length ≤ k := by omega
      rw [scanRight, dif_neg (by omega), List.drop_eq_nil_of_le hlen, scanMatches]
    | succ n ih =>
      intro k hk
      by_cases hlt : k < rrecs.length
      · rw [scanRight, dif_pos hlt, List.drop_eq_getElem_cons hlt]
        simp only [List.get_eq_getElem, scanMatches]
        by_cases hc : fieldAt L li = fieldAt rrecs[k] ri
        · rw [if_pos hc, if_pos hc, ih (k + 1) (by omega)]
        · rw [if_neg hc, if_neg hc]
      · rw [scanRight, dif_neg hlt,
          List.drop_eq_nil_of_le (by omega), scanMatches]
  exact fun k => key _ k le_rfl

theorem mergeLoop_eq_mergeJoin (lrecs rrecs : List (List String)) (li ri : Nat) :
    ∀ i j, mergeLoop lrecs rrecs li ri i j
      = mergeJoin li ri (lrecs.drop i) (rrecs.drop j) := by
  have key : ∀ n i j, lrecs.length - i + (rrecs.length - j) ≤ n →
      mergeLoop lrecs rrecs li ri i j
        = mergeJoin li ri (lrecs.drop i) (rrecs.drop j) := by
    intro n
    induction n with
    | zero =>
      intro i j hn
      have hi : lrecs.length ≤ i := by omega
      rw [mergeLoop, dif_neg (by omega), List.drop_eq_nil_of_le hi, mergeJoin]
    | succ n ih =>
      intro i j hn
      by_cases hi : i < lrecs.length
      · by_cases hj : j < rrecs.length
        · rw [mergeLoop, dif_pos hi, dif_pos hj,
            List.drop_eq_getElem_cons hi, List.drop_eq_getElem_cons hj]
          simp only [List.get_eq_getElem]
          by_cases hc : fieldAt lrecs[i] li = fieldAt rrecs[j] ri
          · rw [if_pos hc, mergeJoin, if_pos hc,
              scanRight_eq_scanMatches, ih (i + 1) j (by omega),
              List.drop_eq_getElem_cons hj]
          · by_cases hlt : fieldAt lrecs[i] li < fieldAt rrecs[j] ri
            · rw [if_neg hc, if_pos hlt, mergeJoin, if_neg hc, if_pos hlt,
                ih (i + 1) j (by omega), List.drop_eq_getElem_cons hj]
            · rw [if_neg hc, if_neg hlt, mergeJoin, if_neg hc, if_neg hlt,
                ih i (j + 1) (by omega), List.drop_eq_getElem_cons hi]
        · rw [mergeLoop, dif_pos hi, dif_neg hj,
            List.drop_eq_nil_of_le (show rrecs.length ≤ j by omega),
            mergeJoin_nil_right]
      · rw [mergeLoop, dif_neg hi, List.drop_eq_nil_of_le (by omega), mergeJoin]
  exact fun i j => key _ i j le_rfl

/-! ### The merge loop computes the nested-loop join on sorted inputs -/

theorem joinSpec_nil_left (li ri : Nat) (rs : List (List String)) :
    joinSpec li ri [] rs = [] := rfl

theorem joinSpec_nil_right (li ri : Nat) (ls : List (List String)) :
    joinSpec li ri ls [] = [] := by
  simp [joinSpec]

theorem joinSpec_cons (li ri : Nat) (L : List String)
    (ls rs : List (List String)) :
    joinSpec li ri (L :: ls) rs
      = (rs.filter fun R => fieldAt L li = fieldAt R ri).map (fun R => L ++ R)
        ++ joinSpec li ri ls rs := by
  simp [joinSpec, List.flatMap_cons]

/-- A right head whose key matches no left row contributes nothing. -/
theorem joinSpec_cons_right_of_no_match {li ri : Nat} {R : List String}
    {ls rs : List (List String)}
    (h : ∀ L ∈ ls, fieldAt L li ≠ fieldAt R ri) :
    joinSpec li ri ls (R :: rs) = joinSpec li ri ls rs := by
  induction ls with
  | nil => rfl
  | cons L ls ih =>
    rw [joinSpec_cons, joinSpec_cons, List.filter_cons,
      if_neg (by simpa using h L (by simp)),
      ih (fun L' hL' => h L' (List.mem_cons_of_mem _ hL'))]

/-- On a sorted right suffix whose keys are all at least the current left
key, the inner fan-out scan collects exactly the key-matching right rows. -/
theorem scanMatches_eq_filter (L : List String) (li ri : Nat)
    (rs : List (List String)) (hs : KeySorted ri rs)
    (hge : ∀ R ∈ rs, fieldAt L li ≤ fieldAt R ri) :
    scanMatches L li ri rs
      = (rs.filter fun R => fieldAt L li = fieldAt R ri).map
          (fun R => L ++ R) := by
  induction rs with
  | nil => rfl
  | cons R rs ih =>
    rw [KeySorted, List.pairwise_cons] at hs
    by_cases hc : fieldAt L li = fieldAt R ri
    · rw [scanMatches, if_pos hc, List.filter_cons, if_pos (by simpa using hc),
        List.map_cons,
        ih hs.2 (fun R' hR' => hc ▸ hs.1 R' hR')]
    · have hlt : fieldAt L li < fieldAt R ri :=
        lt_of_le_of_ne (hge R (by simp)) hc
      rw [scanMatches, if_neg hc, List.filter_eq_nil_iff.mpr ?_, List.map_nil]
      intro R' hR'
      rcases List.mem_cons.mp hR' with rfl | hR'
      · simpa using hc
      · simpa using ne_of_lt (lt_of_lt_of_le hlt (hs.1 R' hR'))

/-- The sort-merge loop agrees with the nested-loop inner join whenever both
inputs are sorted by their key fields. -/
theorem mergeJoin_eq_joinSpec {li ri : Nat} :
    ∀ ls rs : List (List String), KeySorted li ls → KeySorted ri rs →
      mergeJoin li ri ls rs = joinSpec li ri ls rs := by
  have key : ∀ n (ls rs : List (List String)), ls.length + rs.length ≤ n →
      KeySorted li ls → KeySorted ri rs →
      mergeJoin li ri ls rs = joinSpec li ri ls rs := by
    intro n
    induction n with
    | zero =>
      intro ls rs hn _ _
      have h1 : ls = [] := by
        cases ls
        · rfl
        · simp at hn
      subst h1
      rw [mergeJoin, joinSpec_nil_left]
    | succ n ih =>
      intro ls rs hn hls hrs
      match ls, rs with
      | [], rs => rw [mergeJoin, joinSpec_nil_left]
      | L :: ls, [] => rw [mergeJoin, joinSpec_nil_right]
      | L :: ls, R :: rs =>
        have hls' := hls
        have hrs' := hrs
        rw [KeySorted, List.pairwise_cons] at hls' hrs'
        by_cases hc : fieldAt L li = fieldAt R ri
        · rw [mergeJoin, if_pos hc, joinSpec_cons, List.filter_cons,
            if_pos (by simpa using hc), List.map_cons,
            scanMatches_eq_filter L li ri rs hrs'.2
              (fun R' hR' => hc ▸ hrs'.1 R' hR'),
            ih ls (R :: rs) (by simp at hn ⊢; omega) hls'.2 hrs,
            List.cons_append]
        · by_cases hlt : fieldAt L li < fieldAt R ri
          · rw [mergeJoin, if_neg hc, if_pos hlt,
              ih ls (R :: rs) (by simp at hn ⊢; omega) hls'.2 hrs,
              joinSpec_cons, List.filter_eq_nil_iff.mpr ?_, List.map_nil,
              List.nil_append]
            intro R' hR'
            rcases List.mem_cons.mp hR' with rfl | hR'
            · simpa using hc
            · simpa using ne_of_lt (lt_of_lt_of_le hlt (hrs'.1 R' hR'))
          · have hgt : fieldAt R ri < fieldAt L li :=
              lt_of_le_of_ne (le_of_not_lt hlt) (fun h => hc h.symm)
            rw [mergeJoin, if_neg hc, if_neg hlt,
              ih (L :: ls) rs (by simp at hn ⊢; omega) hls hrs'.2,
              joinSpec_cons_right_of_no_match ?_]
            intro L' hL'
            rcases List.mem_cons.mp hL' with rfl | hL'
            · exact hc
            · exact ne_of_gt (lt_of_lt_of_le hgt (hls'.1 L' hL'))
  exact fun ls rs => key _ ls rs le_rfl

/-! ### Membership and counting in the nested-loop join -/

theorem fieldAt_append_left {L R : List String} {i : Nat} (h : i < L.length) :
    fieldAt (L ++ R) i = fieldAt L i :=
  List.getD_append _ _ _ _ h

theorem mem_joinSpec {li ri : Nat} {ls rs : List (List String)}
    {c : List String} :
    c ∈ joinSpec li ri ls rs ↔
      ∃ L, L ∈ ls ∧ ∃ R, R ∈ rs ∧ fieldAt L li = fieldAt R ri ∧
        c = L ++ R := by
  simp only [joinSpec, List.mem_flatMap, List.mem_map, List.mem_filter,
    decide_eq_true_eq]
  constructor
  · rintro ⟨L, hL, R, ⟨hR, hk⟩, rfl⟩
    exact ⟨L, hL, R, hR, hk, rfl⟩
  · rintro ⟨L, hL, R, hR, hk, rfl⟩
    exact ⟨L, hL, R, ⟨hR, hk⟩, rfl⟩

/-- Multiplicity of a matched pair in the nested-loop join: when all left
rows share one width, each concatenation `L ++ R` of a key-matched pair
occurs exactly (count of `L` on the left) × (count of `R` on the right)
times. -/
theorem countP_pair_joinSpec {li ri : Nat} {ls rs : List (List String)}
    {L R : List String} {w : Nat}
    (hw : ∀ L' ∈ ls, L'.length = w) (hL : L.length = w)
    (hkey : fieldAt L li = fieldAt R ri) :
    (joinSpec li ri ls rs).countP (fun c => c = L ++ R)
      = ls.countP (fun c => c = L) * rs.countP (fun c => c = R) := by
  induction ls with
  | nil => simp [joinSpec_nil_left]
  | cons L' ls ih =>
    have hw' : ∀ L'' ∈ ls, L''.length = w :=
      fun L'' h => hw L'' (List.mem_cons_of_mem _ h)
    rw [joinSpec_cons, List.countP_append, ih hw', List.countP_cons]
    by_cases hL' : L' = L
    · subst hL'
      have h1 : ((rs.filter fun R' => fieldAt L' li = fieldAt R' ri).map
            (fun R' => L' ++ R')).countP (fun c => c = L' ++ R)
          = (rs.filter fun R' => fieldAt L' li = fieldAt R' ri).countP
              (fun c => c = R) := by
        rw [List.countP_map]
        apply List.countP_congr
        intro R'' _
        simp [Function.comp]
      have h2 : (rs.filter fun R' => fieldAt L' li = fieldAt R' ri).countP
            (fun c => c = R) = rs.countP (fun c => c = R) := by
        rw [List.countP_filter]
        apply List.countP_congr
        intro a _
        simp only [Bool.and_eq_true, decide_eq_true_eq]
        constructor
        · exact fun h => h.1
        · intro h
          subst h
          exact ⟨rfl, by simpa using hkey⟩
      rw [h1, h2, if_pos (by simp)]
      ring
    · have hzero :
          ((rs.filter fun R' => fieldAt L' li = fieldAt R' ri).map
              (fun R' => L' ++ R')).countP (fun c => c = L ++ R) = 0 := by
        rw [List.countP_eq_zero]
        intro c hmem
        obtain ⟨R'', -, heq⟩ := List.mem_map.mp hmem
        subst heq
        have hlen : L'.length = L.length := by
          rw [hw L' (List.mem_cons_self _ _), hL]
        simp only [decide_eq_true_eq]
        intro hcontra
        exact hL' (List.append_inj hcontra hlen).1
      rw [hzero, if_neg (by simpa using hL')]
      simp

/-- Key-value multiplicity in the nested-loop join: rows carrying key value
`v` number (left rows with key `v`) × (right rows with key `v`), where the
result key is read at the left key position (valid since every left row is
wider than `li`). -/
theorem countP_key_joinSpec {li ri : Nat} {ls rs : List (List String)}
    {v : String} (hli : ∀ L' ∈ ls, li < L'.length) :
    (joinSpec li ri ls rs).countP (fun c => fieldAt c li = v)
      = ls.countP (fun L' => fieldAt L' li = v)
          * rs.countP (fun R' => fieldAt R' ri = v) := by
  induction ls with
  | nil => simp [joinSpec_nil_left]
  | cons L' ls ih =>
    have hli' : ∀ L'' ∈ ls, li < L''.length :=
      fun L'' h => hli L'' (List.mem_cons_of_mem _ h)
    rw [joinSpec_cons, List.countP_append, ih hli', List.countP_cons]
    by_cases hv : fieldAt L' li = v
    · rw [List.countP_map]
      have hcomp :
          ((rs.filter fun R' => fieldAt L' li = fieldAt R' ri).countP
            ((fun c => decide (fieldAt c li = v)) ∘ fun R' => L' ++ R'))
            = (rs.filter fun R' => fieldAt L' li = fieldAt R' ri).length := by
        rw [← List.countP_true]
        apply List.countP_congr
        intro R'' _
        simp [Function.comp,
          fieldAt_append_left (hli L' (List.mem_cons_self _ _)), hv]
      rw [hcomp, ← List.countP_eq_length_filter]
      have hcount :
          rs.countP (fun R' => fieldAt L' li = fieldAt R' ri)
            = rs.countP (fun R' => fieldAt R' ri = v) := by
        apply List.countP_congr
        intro R'' _
        simp [hv, eq_comm]
      rw [hcount, if_pos (by simpa using hv)]
      ring
    · have hzero :
          ((rs.filter fun R' => fieldAt L' li = fieldAt R' ri).map
              (fun R' => L' ++ R')).countP (fun c => fieldAt c li = v)
            = 0 := by
        rw [List.countP_eq_zero]
        intro c hmem
        obtain ⟨R'', -, heq⟩ := List.mem_map.mp hmem
        subst heq
        simpa [fieldAt_append_left (hli L' (List.mem_cons_self _ _))] using hv
      rw [hzero]
      simp [hv]

/-! ### Case analysis of `inner_join` -/

theorem inner_join_error_left {left right : DataSet} {key : String}
    (h : key ∉ left.headers) :
    inner_join left right key = (.error (.columnNotFound key), left, right) := by
  have hk : key_index left key = .error (.columnNotFound key) :=
    key_index_eq_error_iff.mpr ⟨h, rfl⟩
  unfold inner_join
  rw [hk]

theorem inner_join_error_right {left right : DataSet} {key : String}
    (hmem : key ∈ left.headers) (h : key ∉ right.headers) :
    inner_join left right key = (.error (.columnNotFound key), left, right) := by
  obtain ⟨li, hli⟩ := key_index_ok_of_mem hmem
  have hk : key_index right key = .error (.columnNotFound key) :=
    key_index_eq_error_iff.mpr ⟨h, rfl⟩
  unfold inner_join
  rw [hli, hk]

theorem inner_join_empty {left right : DataSet} {key : String} {li ri : Nat}
    (hl : key_index left key = .ok li) (hr : key_index right key = .ok ri)
    (he : (left.records.isEmpty || right.records.isEmpty) = true) :
    inner_join left right key
      = (.ok ⟨left.headers ++ right.headers, []⟩, left, right) := by
  unfold inner_join
  rw [hl, hr]
  simp only [he, if_true]

theorem inner_join_main {left right : DataSet} {key : String} {li ri : Nat}
    (hl : key_index left key = .ok li) (hr : key_index right key = .ok ri)
    (hne : left.records.isEmpty = false) (hne' : right.records.isEmpty = false) :
    inner_join left right key
      = (.ok ⟨left.headers ++ right.headers,
            mergeLoop (left.records.mergeSort (rowLE li))
              (right.records.mergeSort (rowLE ri)) li ri 0 0⟩,
          ⟨left.headers, left.records.mergeSort (rowLE li)⟩,
          ⟨right.headers, right.records.mergeSort (rowLE ri)⟩) := by
  unfold inner_join
  rw [hl, hr]
  simp [hne, hne', sort_by_index_ok (key_index_lt hl),
    sort_by_index_ok (key_index_lt hr)]

theorem key_index_mem {d : DataSet} {key : String} {i : Nat}
    (h : key_index d key = .ok i) : key ∈ d.headers := by
  obtain ⟨hlt, hget, -⟩ := key_index_first h
  rw [List.getD_eq_getElem _ _ hlt] at hget
  exact hget ▸ List.getElem_mem hlt

theorem mergeLoop_zero (lrecs rrecs : List (List String)) (li ri : Nat) :
    mergeLoop lrecs rrecs li ri 0 0 = mergeJoin li ri lrecs rrecs := by
  have h := mergeLoop_eq_mergeJoin lrecs rrecs li ri 0 0
  simpa using h

/-- The records of a successful join on nonempty inputs are the nested-loop
join of the two sorted record lists. -/
theorem inner_join_main_joinSpec {left right : DataSet} {key : String}
    {li ri : Nat}
    (hl : key_index left key = .ok li) (hr : key_index right key = .ok ri)
    (hne : left.records.isEmpty = false) (hne' : right.records.isEmpty = false) :
    inner_join left right key
      = (.ok ⟨left.headers ++ right.headers,
            joinSpec li ri (left.records.mergeSort (rowLE li))
              (right.records.mergeSort (rowLE ri))⟩,
          ⟨left.headers, left.records.mergeSort (rowLE li)⟩,
          ⟨right.headers, right.records.mergeSort (rowLE ri)⟩) := by
  rw [inner_join_main hl hr hne hne', mergeLoop_zero,
    mergeJoin_eq_joinSpec _ _ (sortRecords_pairwise _ _)
      (sortRecords_pairwise _ _)]

/-- Exhaustive case analysis of `inner_join`: either both key lookups
succeed and the join returns (the empty short-circuit or the sorted merge
result), or the key is missing from one side's headers and the join fails
with `columnNotFound`, leaving both inputs untouched. -/
theorem inner_join_cases (left right : DataSet) (key : String) :
    (∃ li ri, key_index left key = .ok li ∧ key_index right key = .ok ri ∧
      ((left.records.isEmpty || right.records.isEmpty) = true ∧
        inner_join left right key
          = (.ok ⟨left.headers ++ right.headers, []⟩, left, right) ∨
       left.records.isEmpty = false ∧ right.records.isEmpty = false ∧
        inner_join left right key
          = (.ok ⟨left.headers ++ right.headers,
                joinSpec li ri (left.records.mergeSort (rowLE li))
                  (right.records.mergeSort (rowLE ri))⟩,
              ⟨left.headers, left.records.mergeSort (rowLE li)⟩,
              ⟨right.headers, right.records.mergeSort (rowLE ri)⟩))) ∨
    ((key ∉ left.headers ∨ key ∉ right.headers) ∧
      inner_join left right key
        = (.error (.columnNotFound key), left, right)) := by
  cases hkl : key_index left key with
  | error e =>
    obtain ⟨hmem, rfl⟩ := key_index_eq_error_iff.mp hkl
    exact Or.inr ⟨Or.inl hmem, inner_join_error_left hmem⟩
  | ok li =>
    cases hkr : key_index right key with
    | error e =>
      obtain ⟨hmem, rfl⟩ := key_index_eq_error_iff.mp hkr
      exact Or.inr ⟨Or.inr hmem,
        inner_join_error_right (key_index_mem hkl) hmem⟩
    | ok ri =>
      refine Or.inl ⟨li, ri, rfl, rfl, ?_⟩
      by_cases he : (left.records.isEmpty || right.records.isEmpty) = true
      · exact Or.inl ⟨he, inner_join_empty hkl hkr he⟩
      · rw [Bool.or_eq_true, not_or, Bool.not_eq_true, Bool.not_eq_true] at he
        exact Or.inr ⟨he.1, he.2,
          inner_join_main_joinSpec hkl hkr he.1 he.2⟩

/-! ## The claims -/

/-- C6: for every data set and name, `key_index name` returns the zero-based
position of the first header entry equal to `name` when at least one header
equals `name`, and fails with a `columnNotFound` error when no header equals
`name`; it is a pure lookup and never mutates the data set (it is modelled
as a function of the data set that returns only the index or the error). -/
theorem keyIndex_first_position (d : DataSet) (name : String) :
    (∀ i, key_index d name = .ok i →
      i < d.headers.length ∧ d.headers.getD i "" = name ∧
        ∀ j, j < i → d.headers.getD j "" ≠ name) ∧
    (name ∈ d.headers → ∃ i, key_index d name = .ok i) ∧
    (name ∉ d.headers ↔ key_index d name = .error (.columnNotFound name)) := by
  refine ⟨fun i h => key_index_first h, fun h => key_index_ok_of_mem h, ?_, ?_⟩
  · intro h
    exact key_index_eq_error_iff.mpr ⟨h, rfl⟩
  · intro h
    exact (key_index_eq_error_iff.mp h).1

theorem keyIndex_first_position_witness :
    0 < (DataSet.mk ["id", "x", "id"] []).headers.length ∧
      (DataSet.mk ["id", "x", "id"] []).headers.getD 0 "" = "id" ∧
      ∀ j, j < 0 → (DataSet.mk ["id", "x", "id"] []).headers.getD j "" ≠ "id" :=
  (keyIndex_first_position ⟨["id", "x", "id"], []⟩ "id").1 0 rfl

/-- C5: `sort_by_index index` fails with an `indexOutOfRange` error exactly
when `index` is not below the header count, and otherwise succeeds,
reordering the records into ascending lexicographic order of the field at
`index` by a stable sort: the result is a permutation of the records,
pairwise ordered on the key field, and for every key value the rows holding
it keep their relative input order. -/
theorem sortByIndex_spec (d : DataSet) (index : Nat) :
    ((∃ e, sort_by_index d index = .error e) ↔ d.headers.length ≤ index) ∧
    (∀ e, sort_by_index d index = .error e → e = .indexOutOfRange index) ∧
    (index < d.headers.length →
      ∃ d', sort_by_index d index = .ok d' ∧
        d'.headers = d.headers ∧
        d'.records.Perm d.records ∧
        d'.records.Pairwise (fun a b => fieldAt a index ≤ fieldAt b index) ∧
        ∀ v, d'.records.filter (fun r => fieldAt r index = v)
          = d.records.filter (fun r => fieldAt r index = v)) := by
  refine ⟨⟨?_, ?_⟩, ?_, ?_⟩
  · rintro ⟨e, he⟩
    exact (sort_by_index_eq_error_iff.mp he).1
  · intro h
    exact ⟨_, sort_by_index_eq_error_iff.mpr ⟨h, rfl⟩⟩
  · intro e he
    exact (sort_by_index_eq_error_iff.mp he).2
  · intro h
    exact ⟨⟨d.headers, d.records.mergeSort (rowLE index)⟩, sort_by_index_ok h,
      rfl, sortRecords_perm _ _, sortRecords_pairwise _ _,
      fun v => sortRecords_stable _ _ v⟩

theorem sortByIndex_spec_witness :
    ∃ d', sort_by_index (DataSet.mk ["k"] [["b"], ["a"]]) 0 = .ok d' ∧
      d'.headers = (DataSet.mk ["k"] [["b"], ["a"]]).headers ∧
      d'.records.Perm (DataSet.mk ["k"] [["b"], ["a"]]).records ∧
      d'.records.Pairwise (fun a b => fieldAt a 0 ≤ fieldAt b 0) ∧
      ∀ v, d'.records.filter (fun r => fieldAt r 0 = v)
        = (DataSet.mk ["k"] [["b"], ["a"]]).records.filter
            (fun r => fieldAt r 0 = v) :=
  (sortByIndex_spec ⟨["k"], [["b"], ["a"]]⟩ 0).2.2 (by decide)

/-- C3: `inner_join` fails (necessarily with a `columnNotFound` error naming
the key) exactly when the key is absent from the left headers or from the
right headers, and on such a failure no result data set is produced and both
input data sets are returned unchanged — the failure happens before any
sorting. -/
theorem innerJoin_columnNotFound_iff (left right : DataSet) (key : String) :
    ((∃ e, (inner_join left right key).1 = .error e) ↔
      (key ∉ left.headers ∨ key ∉ right.headers)) ∧
    ∀ e, (inner_join left right key).1 = .error e →
      e = .columnNotFound key ∧
        (inner_join left right key).2.1 = left ∧
        (inner_join left right key).2.2 = right := by
  rcases inner_join_cases left right key with ⟨li, ri, hl, hr, hcase⟩ | ⟨hmem, heq⟩
  · have hok : ∃ d, (inner_join left right key).1 = .ok d := by
      rcases hcase with ⟨-, heq⟩ | ⟨-, -, heq⟩ <;> exact ⟨_, by rw [heq]⟩
    obtain ⟨d, hd⟩ := hok
    constructor
    · constructor
      · rintro ⟨e, he⟩
        rw [hd] at he
        exact absurd he (by simp)
      · rintro (h | h)
        · exact absurd (key_index_mem hl) h
        · exact absurd (key_index_mem hr) h
    · intro e he
      rw [hd] at he
      exact absurd he (by simp)
  · rw [heq]
    refine ⟨⟨fun _ => hmem, fun _ => ⟨_, rfl⟩⟩, fun e he => ?_⟩
    simp only [Except.error.injEq] at he
    exact ⟨he.symm, rfl, rfl⟩

theorem innerJoin_columnNotFound_iff_witness :
    ∃ e, (inner_join (DataSet.mk ["a"] []) (DataSet.mk ["b"] []) "a").1
      = .error e :=
  (innerJoin_columnNotFound_iff ⟨["a"], []⟩ ⟨["b"], []⟩ "a").1.mpr
    (Or.inr (by decide))

/-- C4: when the key column resolves on both sides and either input has no
records, `inner_join` returns the concatenated headers with zero records and
hands back both inputs exactly as they were — no sorting touches either
record list, regardless of the other side's size. -/
theorem innerJoin_empty_shortCircuit (left right : DataSet) (key : String)
    (li ri : Nat) (hl : key_index left key = .ok li)
    (hr : key_index right key = .ok ri)
    (he : left.records = [] ∨ right.records = []) :
    inner_join left right key
      = (.ok ⟨left.headers ++ right.headers, []⟩, left, right) := by
  apply inner_join_empty hl hr
  rcases he with h | h <;> simp [h]

theorem innerJoin_empty_shortCircuit_witness :
    inner_join (DataSet.mk ["id"] []) (DataSet.mk ["id"] [["7"]]) "id"
      = (.ok ⟨["id", "id"], []⟩, ⟨["id"], []⟩, ⟨["id"], [["7"]]⟩) :=
  innerJoin_empty_shortCircuit ⟨["id"], []⟩ ⟨["id"], [["7"]]⟩ "id" 0 0
    rfl rfl (Or.inl rfl)

/-- C7: the headers of every successful `inner_join` result are the left
headers followed by the right headers, field for field, with no
deduplication — a name present on both sides (the key included) appears
twice. -/
theorem innerJoin_headers_concat (left right : DataSet) (key : String)
    (d : DataSet) (hok : (inner_join left right key).1 = .ok d) :
    d.headers = left.headers ++ right.headers := by
  rcases inner_join_cases left right key with ⟨li, ri, hl, hr, hcase⟩ | ⟨-, heq⟩
  · rcases hcase with ⟨-, heq⟩ | ⟨-, -, heq⟩ <;>
    · rw [heq] at hok
      simp only [Except.ok.injEq] at hok
      rw [← hok]
  · rw [heq] at hok
    exact absurd hok (by simp)

theorem innerJoin_headers_concat_witness :
    (DataSet.mk ["id", "id"] []).headers
      = (DataSet.mk ["id"] []).headers ++ (DataSet.mk ["id"] []).headers :=
  innerJoin_headers_concat ⟨["id"], []⟩ ⟨["id"], []⟩ "id" ⟨["id", "id"], []⟩
    (by
      rw [inner_join_empty
        (show key_index (DataSet.mk ["id"] []) "id" = .ok 0 from rfl)
        (show key_index (DataSet.mk ["id"] []) "id" = .ok 0 from rfl) rfl]
      rfl)

/-- C9: `inner_join` never changes the headers of either input, and its only
effect on the inputs' records is reordering: whether it succeeds or fails,
each input's final record list is a permutation of its initial one. -/
theorem innerJoin_frame (left right : DataSet) (key : String) :
    (inner_join left right key).2.1.headers = left.headers ∧
    (inner_join left right key).2.2.headers = right.headers ∧
    ((inner_join left right key).2.1.records).Perm left.records ∧
    ((inner_join left right key).2.2.records).Perm right.records := by
  rcases inner_join_cases left right key with ⟨li, ri, hl, hr, hcase⟩ | ⟨-, heq⟩
  · rcases hcase with ⟨-, heq⟩ | ⟨-, -, heq⟩ <;> rw [heq]
    · exact ⟨rfl, rfl, .refl _, .refl _⟩
    · exact ⟨rfl, rfl, sortRecords_perm _ _, sortRecords_perm _ _⟩
  · rw [heq]
    exact ⟨rfl, rfl, .refl _, .refl _⟩

/-- C8: under the row-width invariant, once both key lookups succeed
`inner_join` cannot fail: the join returns a result, the index handed to
each `sort_by_index` call is strictly below that data set's header count
(the out-of-range branch is unreachable), and the key-field access is in
bounds on every record of both inputs. -/
theorem innerJoin_total_after_resolution (left right : DataSet)
    (key : String) (li ri : Nat)
    (hwl : ∀ rec ∈ left.records, rec.length = left.headers.length)
    (hwr : ∀ rec ∈ right.records, rec.length = right.headers.length)
    (hl : key_index left key = .ok li) (hr : key_index right key = .ok ri) :
    (∃ d l' r', inner_join left right key = (.ok d, l', r')) ∧
    li < left.headers.length ∧ ri < right.headers.length ∧
    (∀ rec ∈ left.records, li < rec.length) ∧
    (∀ rec ∈ right.records, ri < rec.length) := by
  refine ⟨?_, key_index_lt hl, key_index_lt hr, ?_, ?_⟩
  · by_cases he : (left.records.isEmpty || right.records.isEmpty) = true
    · exact ⟨_, _, _, inner_join_empty hl hr he⟩
    · rw [Bool.or_eq_true, not_or, Bool.not_eq_true, Bool.not_eq_true] at he
      exact ⟨_, _, _, inner_join_main_joinSpec hl hr he.1 he.2⟩
  · intro rec h
    rw [hwl rec h]
    exact key_index_lt hl
  · intro rec h
    rw [hwr rec h]
    exact key_index_lt hr

theorem innerJoin_total_after_resolution_witness :
    (∃ d l' r', inner_join (DataSet.mk ["id"] [["1"]])
      (DataSet.mk ["id"] [["1"]]) "id" = (.ok d, l', r')) ∧
    0 < (DataSet.mk ["id"] [["1"]]).headers.length ∧
    0 < (DataSet.mk ["id"] [["1"]]).headers.length ∧
    (∀ rec ∈ (DataSet.mk ["id"] [["1"]]).records, 0 < rec.length) ∧
    (∀ rec ∈ (DataSet.mk ["id"] [["1"]]).records, 0 < rec.length) :=
  innerJoin_total_after_resolution ⟨["id"], [["1"]]⟩ ⟨["id"], [["1"]]⟩ "id" 0 0
    (by decide) (by decide) rfl rfl

/-- C2: every record of a successful `inner_join` result is the
concatenation of a left record and a right record whose key fields agree;
consequently a left (or right) row whose key value matches nothing on the
other side contributes no result row. -/
theorem innerJoin_only_matching_pairs (left right : DataSet) (key : String)
    (li ri : Nat) (d : DataSet)
    (hwl : ∀ rec ∈ left.records, rec.length = left.headers.length)
    (hwr : ∀ rec ∈ right.records, rec.length = right.headers.length)
    (hl : key_index left key = .ok li) (hr : key_index right key = .ok ri)
    (hok : (inner_join left right key).1 = .ok d) :
    (∀ c ∈ d.records, ∃ L, L ∈ left.records ∧ ∃ R, R ∈ right.records ∧
      fieldAt L li = fieldAt R ri ∧ c = L ++ R) ∧
    (∀ L ∈ left.records, (∀ R ∈ right.records, fieldAt L li ≠ fieldAt R ri) →
      ∀ X, L ++ X ∉ d.records) ∧
    (∀ R ∈ right.records, (∀ L ∈ left.records, fieldAt L li ≠ fieldAt R ri) →
      ∀ X, X ++ R ∉ d.records) := by
  have hpart1 : ∀ c ∈ d.records, ∃ L, L ∈ left.records ∧
      ∃ R, R ∈ right.records ∧ fieldAt L li = fieldAt R ri ∧ c = L ++ R := by
    by_cases he : (left.records.isEmpty || right.records.isEmpty) = true
    · rw [inner_join_empty hl hr he] at hok
      simp only [Except.ok.injEq] at hok
      rw [← hok]
      intro c hc
      simp at hc
    · rw [Bool.or_eq_true, not_or, Bool.not_eq_true, Bool.not_eq_true] at he
      rw [inner_join_main_joinSpec hl hr he.1 he.2] at hok
      simp only [Except.ok.injEq] at hok
      rw [← hok]
      intro c hc
      obtain ⟨L, hL, R, hR, hk, rfl⟩ := mem_joinSpec.mp hc
      exact ⟨L, (sortRecords_perm _ _).mem_iff.mp hL,
        R, (sortRecords_perm _ _).mem_iff.mp hR, hk, rfl⟩
  refine ⟨hpart1, ?_, ?_⟩
  · intro L hL hno X hmem
    obtain ⟨L', hL', R', hR', hk, heq⟩ := hpart1 _ hmem
    have hlen : L.length = L'.length := by
      rw [hwl L hL, hwl L' hL']
    obtain ⟨h1, h2⟩ := List.append_inj heq hlen
    subst h1
    subst h2
    exact hno _ hR' hk
  · intro R hR hno X hmem
    obtain ⟨L', hL', R', hR', hk, heq⟩ := hpart1 _ hmem
    have hlen : R.length = R'.length := by
      rw [hwr R hR, hwr R' hR']
    obtain ⟨h1, h2⟩ := List.append_inj' heq hlen
    subst h1
    subst h2
    exact hno _ hL' hk

theorem innerJoin_only_matching_pairs_witness :
    (∀ c ∈ (DataSet.mk ["id", "id"] []).records,
      ∃ L, L ∈ (DataSet.mk ["id"] []).records ∧
        ∃ R, R ∈ (DataSet.mk ["id"] [["7"]]).records ∧
          fieldAt L 0 = fieldAt R 0 ∧ c = L ++ R) ∧
    (∀ L ∈ (DataSet.mk ["id"] []).records,
      (∀ R ∈ (DataSet.mk ["id"] [["7"]]).records, fieldAt L 0 ≠ fieldAt R 0) →
      ∀ X, L ++ X ∉ (DataSet.mk ["id", "id"] []).records) ∧
    (∀ R ∈ (DataSet.mk ["id"] [["7"]]).records,
      (∀ L ∈ (DataSet.mk ["id"] []).records, fieldAt L 0 ≠ fieldAt R 0) →
      ∀ X, X ++ R ∉ (DataSet.mk ["id", "id"] []).records) :=
  innerJoin_only_matching_pairs ⟨["id"], []⟩ ⟨["id"], [["7"]]⟩ "id" 0 0
    ⟨["id", "id"], []⟩ (by decide) (by decide) rfl rfl
    (by
      rw [inner_join_empty
        (show key_index (DataSet.mk ["id"] []) "id" = .ok 0 from rfl)
        (show key_index (DataSet.mk ["id"] [["7"]]) "id" = .ok 0 from rfl)
        rfl]
      rfl)

/-- C10: `inner_join` preserves the row-width invariant: if every left
record is as wide as the left header row and every right record as wide as
the right header row, then every record of a successful result is as wide
as the result's header row (the two header counts added). -/
theorem innerJoin_width_invariant (left right : DataSet) (key : String)
    (li ri : Nat) (d : DataSet)
    (hwl : ∀ rec ∈ left.records, rec.length = left.headers.length)
    (hwr : ∀ rec ∈ right.records, rec.length = right.headers.length)
    (hl : key_index left key = .ok li) (hr : key_index right key = .ok ri)
    (hok : (inner_join left right key).1 = .ok d) :
    ∀ rec ∈ d.records, rec.length = d.headers.length := by
  by_cases he : (left.records.isEmpty || right.records.isEmpty) = true
  · rw [inner_join_empty hl hr he] at hok
    simp only [Except.ok.injEq] at hok
    rw [← hok]
    intro rec hrec
    simp at hrec
  · rw [Bool.or_eq_true, not_or, Bool.not_eq_true, Bool.not_eq_true] at he
    rw [inner_join_main_joinSpec hl hr he.1 he.2] at hok
    simp only [Except.ok.injEq] at hok
    rw [← hok]
    intro rec hrec
    obtain ⟨L, hL, R, hR, -, rfl⟩ := mem_joinSpec.mp hrec
    show (L ++ R).length = (left.headers ++ right.headers).length
    rw [List.length_append, List.length_append,
      hwl L ((sortRecords_perm _ _).mem_iff.mp hL),
      hwr R ((sortRecords_perm _ _).mem_iff.mp hR)]

theorem innerJoin_width_invariant_witness :
    (["2", "2", "x"] : List String).length
      = (DataSet.mk ["id", "id", "amt"] [["2", "2", "x"]]).headers.length :=
  innerJoin_width_invariant ⟨["id"], [["2"]]⟩ ⟨["id", "amt"], [["2", "x"]]⟩
    "id" 0 0 ⟨["id", "id", "amt"], [["2", "2", "x"]]⟩
    (by decide) (by decide) rfl rfl
    (by
      rw [inner_join_main_joinSpec
        (show key_index (DataSet.mk ["id"] [["2"]]) "id" = .ok 0 from rfl)
        (show key_index (DataSet.mk ["id", "amt"] [["2", "x"]]) "id"
          = .ok 0 from rfl) rfl rfl]
      simp only [List.mergeSort_singleton]
      rfl)
    ["2", "2", "x"] (by decide)

/-- C1: for any key-matched pair of a left record and a right record, the
result of a successful `inner_join` holds their concatenation exactly
(occurrences of the left row) × (occurrences of the right row) times — in
particular exactly once when both rows are unique — and for every key value
`v` the number of result rows carrying `v` (read at the resolved left key
position) is (left rows with key `v`) × (right rows with key `v`). -/
theorem innerJoin_match_multiplicity (left right : DataSet) (key : String)
    (li ri : Nat) (L R : List String)
    (hwl : ∀ rec ∈ left.records, rec.length = left.headers.length)
    (hl : key_index left key = .ok li) (hr : key_index right key = .ok ri)
    (hL : L ∈ left.records) (hR : R ∈ right.records)
    (hkey : fieldAt L li = fieldAt R ri) :
    ∃ d, (inner_join left right key).1 = .ok d ∧
      d.records.countP (fun c => c = L ++ R)
        = left.records.countP (fun c => c = L)
            * right.records.countP (fun c => c = R) ∧
      ∀ v, d.records.countP (fun c => fieldAt c li = v)
        = left.records.countP (fun c => fieldAt c li = v)
            * right.records.countP (fun c => fieldAt c ri = v) := by
  have hne : left.records.isEmpty = false :=
    List.isEmpty_eq_false.mpr (List.ne_nil_of_mem hL)
  have hne' : right.records.isEmpty = false :=
    List.isEmpty_eq_false.mpr (List.ne_nil_of_mem hR)
  have hEq := inner_join_main_joinSpec hl hr hne hne'
  refine ⟨⟨left.headers ++ right.headers,
    joinSpec li ri (left.records.mergeSort (rowLE li))
      (right.records.mergeSort (rowLE ri))⟩, by rw [hEq], ?_, ?_⟩
  · show (joinSpec li ri (left.records.mergeSort (rowLE li))
        (right.records.mergeSort (rowLE ri))).countP (fun c => c = L ++ R) = _
    rw [countP_pair_joinSpec
      (fun L' hL' => hwl L' ((sortRecords_perm _ _).mem_iff.mp hL'))
      (hwl L hL) hkey,
      (sortRecords_perm left.records li).countP_eq,
      (sortRecords_perm right.records ri).countP_eq]
  · intro v
    show (joinSpec li ri (left.records.mergeSort (rowLE li))
        (right.records.mergeSort (rowLE ri))).countP
          (fun c => fieldAt c li = v) = _
    rw [countP_key_joinSpec (fun L' hL' => by
        rw [hwl L' ((sortRecords_perm _ _).mem_iff.mp hL')]
        exact key_index_lt hl),
      (sortRecords_perm left.records li).countP_eq,
      (sortRecords_perm right.records ri).countP_eq]

theorem innerJoin_match_multiplicity_witness :
    ∃ d, (inner_join (DataSet.mk ["id"] [["2"]])
        (DataSet.mk ["id", "amt"] [["2", "x"]]) "id").1 = .ok d ∧
      d.records.countP (fun c => c = ["2"] ++ ["2", "x"])
        = (DataSet.mk ["id"] [["2"]]).records.countP (fun c => c = ["2"])
            * (DataSet.mk ["id", "amt"] [["2", "x"]]).records.countP
                (fun c => c = ["2", "x"]) ∧
      ∀ v, d.records.countP (fun c => fieldAt c 0 = v)
        = (DataSet.mk ["id"] [["2"]]).records.countP
              (fun c => fieldAt c 0 = v)
            * (DataSet.mk ["id", "amt"] [["2", "x"]]).records.countP
                (fun c => fieldAt c 0 = v) :=
  innerJoin_match_multiplicity ⟨["id"], [["2"]]⟩ ⟨["id", "amt"], [["2", "x"]]⟩
    "id" 0 0 ["2"] ["2", "x"] (by decide) rfl rfl (by decide) (by decide) rfl

end CsvAgg
